import Mathlib

/-!
Verification of the cooklang-chef repository against its specification.

The repository's visible sources are:
* `cooklang/src/lib.rs` — the `Extensions` bitflags and `CooklangParser::parse`;
* `cooklang-to-md/src/lib.rs` — the Markdown renderer;
* `src/serve/handlers/recipe.rs` — the HTTP recipe handler, `as_path` and the
  recipe-reference checker.

The crate modules `parser`, `analysis`, `quantity`, `convert` and `model` are
declared in `cooklang/src/lib.rs` but their files are not part of the visible
sources; where a claim depends on them, the corresponding definitions below are
modelled from the spec and say so in their doc comment.
-/

namespace Cooklang

/-! ## Extensions — embedded from `cooklang/src/lib.rs` lines 15-36.

`bitflags!` defines a `u32` bitmask.  `Extensions::default()` is
`Extensions::all()`, the union of the bits of every declared constant. -/

def Extensions := Nat

namespace Extensions

def MULTINE_STEPS : Nat := 0b00000001

def INGREDIENT_MODIFIERS : Nat := 0b00000010

def INGREDIENT_NOTE : Nat := 0b00000100

def INGREDIENT_ALIAS : Nat := 0b00001000

def SECTIONS : Nat := 0b00010000

def ADVANCED_UNITS : Nat := 0b00100000

def MODES : Nat := 0b01000000

def TEMPERATURE : Nat := 0b10000000

def INGREDIENT_ALL : Nat :=
  INGREDIENT_MODIFIERS ||| INGREDIENT_ALIAS ||| INGREDIENT_NOTE

/-- The `bitflags` `all()` value: the union of the bits of every declared constant. -/
def allFlags : Nat :=
  MULTINE_STEPS ||| INGREDIENT_MODIFIERS ||| INGREDIENT_NOTE |||
  INGREDIENT_ALIAS ||| SECTIONS ||| ADVANCED_UNITS ||| MODES |||
  TEMPERATURE ||| INGREDIENT_ALL

/-- The `Default` impl for `Extensions`: `Self::all()`. -/
def defaultExt : Nat := allFlags

/-- The `bitflags` `contains` test: all bits of `f` are set in `e`. -/
def containsF (e f : Nat) : Bool := e &&& f == f

end Extensions

/-! ## Quantity values and scaling.

Modelled from the spec: the `quantity` module of the `cooklang` crate is not
under the visible sources.  `Value` is one of `Number`, `Range(start, end)`,
`Text`; numbers are modelled as rationals.  `scale` multiplies every
`Value::Number` by the factor, multiplies both bounds of every `Value::Range`
identically, and leaves `Value::Text` unchanged.  `default_scale()` is `scale`
with factor 1. -/

inductive Value
  | number (n : ℚ)
  | range (a b : ℚ)
  | text (s : String)
  deriving DecidableEq, Repr

structure Quantity where
  value : Value
  unit : Option String
  deriving DecidableEq, Repr

/-- Modelled from the spec: scaling one value by a factor (the `Scaler` of the
missing `cooklang::scale` module). `Value::Text` is never mutated. -/
def scaleValue (k : ℚ) : Value → Value
  | .number n => .number (k * n)
  | .range a b => .range (k * a) (k * b)
  | .text s => .text s

def scaleQuantity (k : ℚ) (q : Quantity) : Quantity :=
  { q with value := scaleValue k q.value }

/-! ## Converter and ingredient grouping.

Modelled from the spec: the `convert` module and `group_ingredients` of the
`cooklang` crate are not under the visible sources.  A converter is an
immutable table of unit definitions, each tagged with a physical kind and a
factor relative to the kind's base unit.  `group_ingredients` merges
same-named listed ingredients and classifies each group by an outcome:
`Fixed` when the group has no quantities, `Scaled` with one summed quantity
when all quantities share a convertible kind, `Error` with the original
quantities kept separately when kinds are mutually incompatible. -/

inductive PhysKind
  | mass
  | volume
  | time
  | temperature
  | count
  deriving DecidableEq, Repr

structure UnitDef where
  uname : String
  kind : PhysKind
  factor : ℚ
  deriving DecidableEq, Repr

structure Converter where
  units : List UnitDef
  deriving DecidableEq, Repr

def Converter.lookupUnit (c : Converter) (u : String) : Option UnitDef :=
  c.units.find? (fun d => d.uname == u)

/-- Modelled from the spec: a quantity can join a sum kept in unit `target`
when it is numeric and its unit converts to `target` (same physical kind,
via the factors relative to the kind's base unit); both dimensionless
(unitless) quantities also add directly. -/
def convertAmount (c : Converter) (q : Quantity) (target : Option String) : Option ℚ :=
  match q.value with
  | .number n =>
    match q.unit, target with
    | none, none => some n
    | some u, some t =>
      match c.lookupUnit u, c.lookupUnit t with
      | some du, some dt =>
        if du.kind = dt.kind ∧ dt.factor ≠ 0 then some (n * du.factor / dt.factor)
        else none
      | _, _ => none
    | _, _ => none
  | _ => none

/-- Add one quantity into a running sum expressed in `acc`'s unit. -/
def addQuantity (c : Converter) (acc : Quantity) (q : Quantity) : Option Quantity :=
  match acc.value with
  | .number a =>
    match convertAmount c q acc.unit with
    | some b => some { value := .number (a + b), unit := acc.unit }
    | none => none
  | _ => none

/-- Sum a whole group into the first quantity's unit, failing as soon as one
quantity cannot be converted. -/
def sumAll (c : Converter) (q : Quantity) (qs : List Quantity) : Option Quantity :=
  qs.foldl (fun acc q2 => acc.bind (fun a => addQuantity c a q2)) (some q)

inductive GroupOutcome
  | fixed
  | scaled
  | error
  deriving DecidableEq, Repr

structure GroupedQuantity where
  outcome : GroupOutcome
  total : Option Quantity
  items : List Quantity
  deriving DecidableEq, Repr

/-- Modelled from the spec: classify one merged same-named group of
quantities.  No quantities → `Fixed`; all summable via the converter →
`Scaled` with the one summed quantity; otherwise → `Error`, keeping the
original quantities listed separately. -/
def groupQuantities (c : Converter) : List Quantity → GroupedQuantity
  | [] => { outcome := .fixed, total := none, items := [] }
  | q :: qs =>
    match sumAll c q qs with
    | some t => { outcome := .scaled, total := some t, items := q :: qs }
    | none => { outcome := .error, total := none, items := q :: qs }

def isNumeric (q : Quantity) : Bool :=
  match q.value with
  | .number _ => true
  | _ => false

/-! ## Diagnostics.

Modelled from the spec: `error::SourceReport` of the `cooklang` crate is not
under the visible sources.  A diagnostic has a severity and a message; a
`SourceReport` is the ordered list of diagnostics in order of first
detection. -/

inductive Severity
  | warning
  | error
  deriving DecidableEq, Repr

structure Diagnostic where
  severity : Severity
  message : String
  deriving DecidableEq, Repr

structure SourceReport where
  diags : List Diagnostic
  deriving DecidableEq, Repr

def warnDiag (msg : String) : Diagnostic := { severity := .warning, message := msg }

def errDiag (msg : String) : Diagnostic := { severity := .error, message := msg }

def hasErrorB (ds : List Diagnostic) : Bool :=
  ds.any (fun d => d.severity == Severity.error)

/-! ## Lexer.

Modelled from the spec: the `parser` module of the `cooklang` crate is not
under the visible sources.  Line-oriented: metadata lines, line comments,
section markers, and step lines whose words carry ingredient (`@`),
cookware (`#`), timer (`~`) and inline-quantity markers with optional
modifier prefixes and braced quantity suffixes.  Broken markers degrade to
plain text tokens plus a recorded diagnostic; the lexer never aborts.
Simplification of the model: names are single words, aliases and notes are
not modelled. -/

structure Modifiers where
  isOptional : Bool
  isHidden : Bool
  isNew : Bool
  isRef : Bool
  deriving DecidableEq, Repr

def noMods : Modifiers :=
  { isOptional := false, isHidden := false, isNew := false, isRef := false }

def Modifiers.anyMod (m : Modifiers) : Bool :=
  m.isOptional || m.isHidden || m.isNew || m.isRef

structure RawQty where
  amount : String
  unitText : Option String
  deriving DecidableEq, Repr

inductive Token
  | metaLine (key value : String)
  | sectionMark (sname : Option String)
  | textTok (s : String)
  | ingredientTok (mods : Modifiers) (name : String) (qty : Option RawQty)
  | cookwareTok (mods : Modifiers) (name : String) (qty : Option RawQty)
  | timerTok (tname : Option String) (qty : Option RawQty)
  | inlineQtyTok (qty : RawQty)
  | eol
  | blank
  deriving DecidableEq, Repr

def lbrace : Char := Char.ofNat 123

def rbrace : Char := Char.ofNat 125

def isModChar (c : Char) : Bool :=
  c = '&' || c = '+' || c = '?' || c = '-'

def isNameChar (c : Char) : Bool :=
  c.isAlphanum || c = '_'

/-! Character-list utilities, structurally recursive so that concrete runs
of the pipeline evaluate. -/

def isWsChar (c : Char) : Bool :=
  c = ' ' || c = '\t' || c = '\r'

def trimChars (cs : List Char) : List Char :=
  ((cs.dropWhile isWsChar).reverse.dropWhile isWsChar).reverse

/-- Split on a separator character; always returns at least one group. -/
def splitOnChar (c : Char) : List Char → List (List Char)
  | [] => [[]]
  | x :: xs =>
    if x = c then [] :: splitOnChar c xs
    else
      match splitOnChar c xs with
      | [] => [[x]]
      | g :: gs => (x :: g) :: gs

def joinChars (c : Char) : List (List Char) → List Char
  | [] => []
  | [g] => g
  | g :: gs => g ++ c :: joinChars c gs

def leadsWith : List Char → List Char → Bool
  | [], _ => true
  | _ :: _, [] => false
  | p :: ps, c :: cs => p = c && leadsWith ps cs

def digitsVal (cs : List Char) : Nat :=
  cs.foldl (fun n c => 10 * n + (c.toNat - 48)) 0

def digitsToNat (cs : List Char) : Option Nat :=
  if cs ≠ [] ∧ cs.all Char.isDigit then some (digitsVal cs) else none

def charsToMods (cs : List Char) : Modifiers :=
  { isOptional := cs.contains '?'
    isHidden := cs.contains '-'
    isNew := cs.contains '+'
    isRef := cs.contains '&' }

/-- Split the text inside a braced quantity on the first percent sign into
amount and unit text. -/
def parseRawQty (cs : List Char) : RawQty :=
  match splitOnChar '%' cs with
  | [] => { amount := "", unitText := none }
  | [v] => { amount := String.mk (trimChars v), unitText := none }
  | v :: u :: _ =>
    { amount := String.mk (trimChars v), unitText := some (String.mk (trimChars u)) }

/-- Parse an optional braced quantity suffix.  Returns `none` on a broken
(unterminated) brace, `some (none, rest)` when there is no brace at all. -/
def takeBraced (cs : List Char) : Option (Option RawQty × List Char) :=
  match cs with
  | [] => some (none, [])
  | c :: rest =>
    if c = lbrace then
      match rest.dropWhile (fun x => x ≠ rbrace) with
      | [] => none
      | _ :: after =>
        some (some (parseRawQty (rest.takeWhile (fun x => x ≠ rbrace))), after)
    else some (none, cs)

/-- Classify one word of a step line.  Broken or extension-disabled markers
degrade to a plain text token plus a diagnostic. -/
def classifyWord (exts : Nat) (w : List Char) : List Token × List Diagnostic :=
  match w with
  | [] => ([], [])
  | c :: rest =>
    if c = '@' ∨ c = '#' then
      let modChars := rest.takeWhile isModChar
      let afterMods := rest.dropWhile isModChar
      let mods := charsToMods modChars
      let nameChars := afterMods.takeWhile isNameChar
      let afterName := afterMods.dropWhile isNameChar
      if nameChars = [] then
        ([.textTok (String.mk w)], [errDiag "marker without a name"])
      else if mods.anyMod ∧ ¬ Extensions.containsF exts Extensions.INGREDIENT_MODIFIERS then
        ([.textTok (String.mk w)], [warnDiag "modifiers extension disabled"])
      else
        match takeBraced afterName with
        | none => ([.textTok (String.mk w)], [errDiag "unterminated quantity brace"])
        | some (qty, _) =>
          if c = '@' then
            ([.ingredientTok mods (String.mk nameChars) qty], [])
          else
            ([.cookwareTok mods (String.mk nameChars) qty], [])
    else if c = '~' then
      let nameChars := rest.takeWhile isNameChar
      let afterName := rest.dropWhile isNameChar
      match takeBraced afterName with
      | none => ([.textTok (String.mk w)], [errDiag "unterminated quantity brace"])
      | some (qty, _) =>
        ([.timerTok (if nameChars = [] then none else some (String.mk nameChars)) qty], [])
    else if c = lbrace then
      match takeBraced (c :: rest) with
      | none => ([.textTok (String.mk w)], [errDiag "unterminated quantity brace"])
      | some (some q, _) => ([.inlineQtyTok q], [])
      | some (none, _) => ([.textTok (String.mk w)], [])
    else
      ([.textTok (String.mk w)], [])

/-- Lex one line of input. -/
def lexLine (exts : Nat) (line : List Char) : List Token × List Diagnostic :=
  if (trimChars line).isEmpty then ([.blank], [])
  else if leadsWith ['>', '>'] line then
    match splitOnChar ':' (line.drop 2) with
    | [] => ([.metaLine "" ""], [])
    | [k] => ([.metaLine (String.mk (trimChars k)) ""], [])
    | k :: vs =>
      ([.metaLine (String.mk (trimChars k))
          (String.mk (trimChars (joinChars ':' vs)))], [])
  else if leadsWith ['-', '-'] line then ([], [])
  else if leadsWith ['='] line then
    if Extensions.containsF exts Extensions.SECTIONS then
      ([.sectionMark
          (if (trimChars (line.filter (fun c => c ≠ '='))).isEmpty then none
           else some (String.mk (trimChars (line.filter (fun c => c ≠ '=')))))], [])
    else ([.textTok (String.mk line), .eol], [warnDiag "sections extension disabled"])
  else
    ((((splitOnChar ' ' line).map (classifyWord exts)).map Prod.fst).flatten ++ [Token.eol],
     (((splitOnChar ' ' line).map (classifyWord exts)).map Prod.snd).flatten)

/-- Lex a whole input, line by line.  A malformed line never discards the
tokens of the other lines. -/
def lexLines (exts : Nat) : List (List Char) → List Token × List Diagnostic
  | [] => ([], [])
  | l :: ls =>
    ((lexLine exts l).1 ++ (lexLines exts ls).1,
     (lexLine exts l).2 ++ (lexLines exts ls).2)

def rawLex (exts : Nat) (input : String) : List Token × List Diagnostic :=
  lexLines exts (splitOnChar '\n' input.data)

/-! ## Parser.

Modelled from the spec: groups the token stream into sections and steps.  A
section marker starts a new `Section`; absent any marker the document is one
implicit section.  Steps are separated by blank lines; with multiline steps
disabled every line is its own step. -/

structure RawSection where
  sname : Option String
  steps : List (List Token)
  deriving DecidableEq, Repr

structure Ast where
  meta : List (String × String)
  sections : List RawSection
  deriving DecidableEq, Repr

structure PState where
  done : List RawSection
  curName : Option String
  curSteps : List (List Token)
  curStep : List Token
  meta : List (String × String)
  deriving DecidableEq, Repr

def pushStep (st : PState) : PState :=
  if st.curStep = [] then st
  else { st with curSteps := st.curSteps ++ [st.curStep], curStep := [] }

def closeSection (st : PState) (next : Option String) : PState :=
  let st := pushStep st
  if st.curName.isSome ∨ st.curSteps ≠ [] then
    { st with done := st.done ++ [{ sname := st.curName, steps := st.curSteps }]
              curName := next, curSteps := [] }
  else { st with curName := next }

def parseToken (exts : Nat) (st : PState) : Token → PState
  | .metaLine k v => { st with meta := st.meta ++ [(k, v)] }
  | .sectionMark nm => closeSection st nm
  | .blank => pushStep st
  | .eol =>
    if Extensions.containsF exts Extensions.MULTINE_STEPS then st else pushStep st
  | t => { st with curStep := st.curStep ++ [t] }

def parseTokens (exts : Nat) (toks : List Token) : Ast :=
  let st0 : PState :=
    { done := [], curName := none, curSteps := [], curStep := [], meta := [] }
  let st := toks.foldl (parseToken exts) st0
  let st := pushStep st
  let secs :=
    if st.curName.isSome ∨ st.curSteps ≠ [] ∨ st.done = [] then
      st.done ++ [{ sname := st.curName, steps := st.curSteps }]
    else st.done
  { meta := st.meta, sections := secs }

/-- Modelled from the spec: `parser::parse` lexes and groups; all its
diagnostics come from the lexer in this model. -/
def rawParse (input : String) (exts : Nat) : Ast × List Diagnostic :=
  let (toks, ds) := rawLex exts input
  (parseTokens exts toks, ds)

/-! ## Semantic analysis.

Modelled from the spec: the `analysis` module of the `cooklang` crate is not
under the visible sources.  The analyzer walks the AST, resolves
references, deduplicates repeated mentions and emits the canonical recipe
content.  A "references previous" mention links by index to the nearest
earlier same-named definition; when none exists, a diagnostic is recorded
and the mention is resolved as a fresh definition. -/

inductive Item
  | text (value : String)
  | ingredient (index : Nat)
  | cookware (index : Nat)
  | timer (index : Nat)
  | inlineQuantity (index : Nat)
  deriving DecidableEq, Repr

structure Step where
  number : Nat
  items : List Item
  deriving DecidableEq, Repr

inductive Content
  | step (s : Step)
  | text (s : String)
  deriving DecidableEq, Repr

structure Section where
  sname : Option String
  content : List Content
  deriving DecidableEq, Repr

structure Ingredient where
  iname : String
  modifiers : Modifiers
  quantity : Option Quantity
  relation : Option Nat
  deriving DecidableEq, Repr

structure Cookware where
  cname : String
  modifiers : Modifiers
  quantity : Option Quantity
  relation : Option Nat
  deriving DecidableEq, Repr

structure Timer where
  tname : Option String
  quantity : Option Quantity
  deriving DecidableEq, Repr

structure MetaCore where
  map : List (String × String)
  servings : Option Nat
  deriving DecidableEq, Repr

/-- Modelled from the spec: numeric literal forms are plain numbers, simple
fractions `a/b` and ranges `a-b`; anything else becomes `Value::Text`
verbatim and is never an error by itself. -/
def parseValue (s : String) : Value :=
  match digitsToNat s.data with
  | some n => .number n
  | none =>
    match splitOnChar '/' s.data with
    | [a, b] =>
      match digitsToNat a, digitsToNat b with
      | some x, some y => if y ≠ 0 then .number ((x : ℚ) / y) else .text s
      | _, _ => .text s
    | _ =>
      match splitOnChar '-' s.data with
      | [a, b] =>
        match digitsToNat a, digitsToNat b with
        | some x, some y => .range x y
        | _, _ => .text s
      | _ => .text s

def parseQuantity (rq : RawQty) : Quantity :=
  { value := parseValue rq.amount, unit := rq.unitText }

/-- Find the index of the last (nearest earlier) matching element, with its
bound carried in the result. -/
def findLastIdxF (p : α → Bool) : (l : List α) → Option (Fin l.length)
  | [] => none
  | a :: as =>
    match findLastIdxF p as with
    | some i => some ⟨i.val + 1, Nat.succ_lt_succ i.isLt⟩
    | none => if p a then some ⟨0, Nat.succ_pos _⟩ else none

structure AnState where
  ingredients : List Ingredient
  cookware : List Cookware
  timers : List Timer
  inlineQuantities : List Quantity
  diags : List Diagnostic
  deriving DecidableEq, Repr

def emptyAnState : AnState :=
  { ingredients := [], cookware := [], timers := [], inlineQuantities := [], diags := [] }

/-- Reference resolution and deduplication for one entity list, as the spec
describes it: "references previous" links the nearest earlier same-named
entry by index (a fresh definition plus a diagnostic when none exists);
"forces new" always creates a new entry; otherwise a same-named mention is
folded into the earlier canonical entry. -/
def resolveIdx (getName : α → String) (l : List α) (m : Modifiers) (nm : String)
    (fresh : Option Nat → α) : List α × Nat × List Diagnostic :=
  if m.isRef then
    match findLastIdxF (fun a => getName a == nm) l with
    | some i => (l ++ [fresh (some i.val)], l.length, [])
    | none => (l ++ [fresh none], l.length, [warnDiag "reference to undefined entry"])
  else if m.isNew then (l ++ [fresh none], l.length, [])
  else
    match findLastIdxF (fun a => getName a == nm) l with
    | some i => (l, i.val, [])
    | none => (l ++ [fresh none], l.length, [])

def anToken (st : AnState) : Token → AnState × List Item
  | .textTok s => (st, [.text s])
  | .ingredientTok mods nm qty =>
    let r := resolveIdx Ingredient.iname st.ingredients mods nm
      (fun rel => { iname := nm, modifiers := mods, quantity := qty.map parseQuantity, relation := rel })
    ({ st with ingredients := r.1, diags := st.diags ++ r.2.2 }, [.ingredient r.2.1])
  | .cookwareTok mods nm qty =>
    let r := resolveIdx Cookware.cname st.cookware mods nm
      (fun rel => { cname := nm, modifiers := mods, quantity := qty.map parseQuantity, relation := rel })
    ({ st with cookware := r.1, diags := st.diags ++ r.2.2 }, [.cookware r.2.1])
  | .timerTok nm qty =>
    ({ st with timers := st.timers ++ [{ tname := nm, quantity := qty.map parseQuantity }] },
     [.timer st.timers.length])
  | .inlineQtyTok q =>
    ({ st with inlineQuantities := st.inlineQuantities ++ [parseQuantity q] },
     [.inlineQuantity st.inlineQuantities.length])
  | _ => (st, [])

def anTokens (st : AnState) : List Token → AnState × List Item
  | [] => (st, [])
  | t :: ts =>
    let h := anToken st t
    let r := anTokens h.1 ts
    (r.1, h.2 ++ r.2)

def anSteps (st : AnState) (n : Nat) : List (List Token) → AnState × List Content
  | [] => (st, [])
  | toks :: rest =>
    let h := anTokens st toks
    let r := anSteps h.1 (n + 1) rest
    (r.1, .step { number := n, items := h.2 } :: r.2)

def anSections (st : AnState) : List RawSection → AnState × List Section
  | [] => (st, [])
  | s :: rest =>
    let h := anSteps st 1 s.steps
    let r := anSections h.1 rest
    (r.1, { sname := s.sname, content := h.2 } :: r.2)

/-- Modelled from the spec: typed metadata extraction; `servings` parses to
its typed field when it is a number, on mismatch it is retained only in the
raw map and a diagnostic notes the fallback. -/
def analyzeMeta (entries : List (String × String)) : MetaCore × List Diagnostic :=
  ({ map := entries
     servings := entries.foldl
       (fun acc kv => if kv.1 = "servings" then digitsToNat kv.2.data else acc) none },
   entries.foldl
     (fun acc kv =>
       if kv.1 = "servings" ∧ digitsToNat kv.2.data = none then
         acc ++ [warnDiag "servings metadata is not a number"]
       else acc) [])

structure RecipeContent where
  metadata : MetaCore
  sections : List Section
  ingredients : List Ingredient
  cookware : List Cookware
  timers : List Timer
  inlineQuantities : List Quantity
  deriving DecidableEq, Repr

/-- Modelled from the spec: `analysis::analyze_ast`'s underlying total
transformation (its failure gate is applied separately). -/
def rawAnalyze (ast : Ast) : RecipeContent × List Diagnostic :=
  ({ metadata := (analyzeMeta ast.meta).1
     sections := (anSections emptyAnState ast.sections).2
     ingredients := (anSections emptyAnState ast.sections).1.ingredients
     cookware := (anSections emptyAnState ast.sections).1.cookware
     timers := (anSections emptyAnState ast.sections).1.timers
     inlineQuantities := (anSections emptyAnState ast.sections).1.inlineQuantities },
   (analyzeMeta ast.meta).2 ++ (anSections emptyAnState ast.sections).1.diags)

/-! ## The failure gate and `CooklangParser::parse`.

The gate is modelled from the spec: a phase fails, handing the caller the
`SourceReport`, exactly when at least one Error-severity diagnostic exists
or, in "warnings as errors" mode, when any diagnostic at all exists.
`CooklangParser::parse` itself is embedded from `cooklang/src/lib.rs` lines
65-94: it runs the parser phase, propagates its failure, runs the analysis
phase, propagates its failure, and concatenates the two warning lists. -/

def gateFails (wae : Bool) (ds : List Diagnostic) : Bool :=
  hasErrorB ds || (wae && !ds.isEmpty)

/-- The `CookResult` of `parser::parse`. -/
def parserParse (input : String) (exts : Nat) (wae : Bool) :
    Except SourceReport (Ast × List Diagnostic) :=
  if gateFails wae (rawParse input exts).2 then .error { diags := (rawParse input exts).2 }
  else .ok (rawParse input exts)

/-- The `CookResult` of `analysis::analyze_ast`.  The source-text, extensions and
converter arguments are kept for interface fidelity with the call in
`cooklang/src/lib.rs`; the modelled analysis does not consult them. -/
def analyzeAst (input : String) (ast : Ast) (exts : Nat) (conv : Option Converter)
    (wae : Bool) : Except SourceReport (RecipeContent × List Diagnostic) :=
  if gateFails wae (rawAnalyze ast).2 then .error { diags := (rawAnalyze ast).2 }
  else .ok (rawAnalyze ast)

structure Recipe where
  rname : String
  metadata : MetaCore
  sections : List Section
  ingredients : List Ingredient
  cookware : List Cookware
  timers : List Timer
  inlineQuantities : List Quantity
  deriving DecidableEq, Repr

structure CooklangParser where
  extensions : Nat
  warningsAsErrors : Bool
  converter : Option Converter
  deriving DecidableEq, Repr

/-- Constructor `CooklangParser::new()`, the `Default` configuration. -/
def CooklangParser.new : CooklangParser :=
  { extensions := Extensions.defaultExt, warningsAsErrors := false, converter := none }

/-- Embedded from `cooklang/src/lib.rs` lines 65-94. -/
def CooklangParser.parse (p : CooklangParser) (input recipeName : String) :
    Except SourceReport (Recipe × List Diagnostic) :=
  match parserParse input p.extensions p.warningsAsErrors with
  | .error r => .error r
  | .ok pr =>
    match analyzeAst input pr.1 p.extensions p.converter p.warningsAsErrors with
    | .error r => .error r
    | .ok ar =>
      .ok ({ rname := recipeName
             metadata := ar.1.metadata
             sections := ar.1.sections
             ingredients := ar.1.ingredients
             cookware := ar.1.cookware
             timers := ar.1.timers
             inlineQuantities := ar.1.inlineQuantities }, pr.2 ++ ar.2)

def exceptIsError : Except ε α → Bool
  | .error _ => true
  | .ok _ => false

/-- The diagnostics a run of `CooklangParser::parse` produces: the parser
phase's, and — when that phase passes its gate — also the analysis
phase's. -/
def pipelineDiags (p : CooklangParser) (input : String) : List Diagnostic :=
  if gateFails p.warningsAsErrors (rawParse input p.extensions).2 then
    (rawParse input p.extensions).2
  else (rawParse input p.extensions).2 ++ (rawAnalyze (rawParse input p.extensions).1).2

/-! ## Recipe-level scaling.

Modelled from the spec: `scale` multiplies every numeric quantity of the
recipe by the factor; `default_scale()` is `scale` with factor 1.  A
`ScaledRecipe` is structurally identical to a `Recipe`. -/

def ScaledRecipe := Recipe

def scaleIngredient (k : ℚ) (i : Ingredient) : Ingredient :=
  { i with quantity := i.quantity.map (scaleQuantity k) }

def scaleCookware (k : ℚ) (c : Cookware) : Cookware :=
  { c with quantity := c.quantity.map (scaleQuantity k) }

def scaleTimer (k : ℚ) (t : Timer) : Timer :=
  { t with quantity := t.quantity.map (scaleQuantity k) }

def scaleRecipe (k : ℚ) (r : Recipe) : ScaledRecipe :=
  { r with ingredients := r.ingredients.map (scaleIngredient k)
           cookware := r.cookware.map (scaleCookware k)
           timers := r.timers.map (scaleTimer k)
           inlineQuantities := r.inlineQuantities.map (scaleQuantity k) }

/-- The `default_scale()` operation: `scale` with factor 1. -/
def defaultScale (r : Recipe) : ScaledRecipe := scaleRecipe 1 r

/-! ## Validity of the indices stored in a recipe. -/

def itemValidB (r : Recipe) : Item → Bool
  | .text _ => true
  | .ingredient i => i < r.ingredients.length
  | .cookware i => i < r.cookware.length
  | .timer i => i < r.timers.length
  | .inlineQuantity i => i < r.inlineQuantities.length

def contentValidB (r : Recipe) : Content → Bool
  | .step s => s.items.all (itemValidB r)
  | .text _ => true

def relValidB (n : Nat) : Option Nat → Bool
  | some j => j < n
  | none => true

/-- Every index stored in an item or a relation is a valid index into the
owning recipe's corresponding list. -/
def recipeValidB (r : Recipe) : Bool :=
  r.sections.all (fun s => s.content.all (contentValidB r))
  && r.ingredients.all (fun i => relValidB r.ingredients.length i.relation)
  && r.cookware.all (fun c => relValidB r.cookware.length c.relation)

/-! Invariants of the analyzer state, used to establish index validity. -/

/-- An item's indices are in range for the analyzer state's lists. -/
def ItemOkSt (st : AnState) : Item → Prop
  | .text _ => True
  | .ingredient i => i < st.ingredients.length
  | .cookware i => i < st.cookware.length
  | .timer i => i < st.timers.length
  | .inlineQuantity i => i < st.inlineQuantities.length

def ContentOkSt (st : AnState) : Content → Prop
  | .step s => ∀ it ∈ s.items, ItemOkSt st it
  | .text _ => True

def SectionOkSt (st : AnState) (sec : Section) : Prop :=
  ∀ c ∈ sec.content, ContentOkSt st c

/-- All relations stored in the state's entity lists are in range. -/
def StOk (st : AnState) : Prop :=
  (∀ ing ∈ st.ingredients, ∀ j, ing.relation = some j → j < st.ingredients.length)
  ∧ (∀ cw ∈ st.cookware, ∀ j, cw.relation = some j → j < st.cookware.length)

/-- The analyzer only ever appends: all four entity lists grow. -/
def StLe (s1 s2 : AnState) : Prop :=
  s1.ingredients.length ≤ s2.ingredients.length
  ∧ s1.cookware.length ≤ s2.cookware.length
  ∧ s1.timers.length ≤ s2.timers.length
  ∧ s1.inlineQuantities.length ≤ s2.inlineQuantities.length

end Cooklang

namespace CookMd

/-! ## The Markdown renderer — embedded from `cooklang-to-md/src/lib.rs`.

The renderer consumes the `cooklang` crate's `ScaledRecipe` through a small
interface: grouped ingredient entries exposing `should_be_listed()`,
`is_optional()`, `display_name()`, a note, and a grouped quantity with
`is_empty()` and a display string; and `Metadata` with its raw map and its
typed fields.  Those views are the renderer's inputs here. -/

/-- The slice of `Modifiers` behaviour the renderer consults. -/
structure MdIngredient where
  display_name : String
  should_be_listed : Bool
  is_optional : Bool
  note : Option String
  deriving DecidableEq, Repr

/-- The grouped quantity of one `group_ingredients` entry, as the renderer
sees it: an emptiness test and a display string. -/
structure GroupQty where
  text : String
  is_empty : Bool
  deriving DecidableEq, Repr

structure GroupEntry where
  ingredient : MdIngredient
  quantity : GroupQty
  deriving DecidableEq, Repr

/-- One entry of the loop body of `ingredients` (`cooklang-to-md/src/lib.rs`
lines 196-218): hidden entries are skipped, a non-empty quantity is written
before the display name, then the optional marker and the note. -/
def ingredientLine (e : GroupEntry) : Option String :=
  if e.ingredient.should_be_listed = false then none
  else
    some ("- "
      ++ (if e.quantity.is_empty = false then "*" ++ e.quantity.text ++ "* " else "")
      ++ e.ingredient.display_name
      ++ (if e.ingredient.is_optional then " (optional)" else "")
      ++ (match e.ingredient.note with
          | some n => " (" ++ n ++ ")"
          | none => ""))

/-- The `ingredients` function (`cooklang-to-md/src/lib.rs` lines 189-222) as
the list of lines it writes.  `ingredientsEmpty` is
`recipe.ingredients.is_empty()`; `entries` is `recipe.group_ingredients(...)`. -/
def renderIngredients (ingredientsEmpty : Bool) (entries : List GroupEntry) :
    List String :=
  if ingredientsEmpty then []
  else "## Ingredients" :: (entries.filterMap ingredientLine ++ [""])

/-! ### YAML front matter — embedded from `frontmatter`, lines 135-187. -/

inductive TypedVal
  | authorV (v : String)
  | sourceV (v : String)
  | timeV (v : Nat)
  | servingsV (v : List Nat)
  | tagsV (v : List String)
  deriving DecidableEq, Repr

/-- A value of the emitted YAML mapping: either the `to_string()` of a raw
metadata entry or the `serde_yaml` encoding of a typed field. -/
inductive YVal
  | ofRaw (s : String)
  | ofTyped (t : TypedVal)
  deriving DecidableEq, Repr

/-- The `cooklang` `Metadata` as the renderer consumes it: the raw ordered
map plus the typed special fields. -/
structure MdMetadata where
  map : List (String × String)
  author : Option String
  source : Option String
  time : Option Nat
  servings : Option (List Nat)
  tags : List String
  description : Option String
  deriving DecidableEq, Repr

structure Options where
  tags : Bool
  description : Bool
  escape_step_numbers : Bool
  front_matter_name : Bool
  deriving DecidableEq, Repr

/-- The `Options::default()` value. -/
def defaultOptions : Options :=
  { tags := true, description := true, escape_step_numbers := false,
    front_matter_name := true }

/-- The `IndexMap::insert` operation: replace the value in place when the key exists, else
append at the end. -/
def imInsert (m : List (String × YVal)) (k : String) (v : YVal) :
    List (String × YVal) :=
  if m.any (fun kv => kv.1 == k) then
    m.map (fun kv => if kv.1 == k then (k, v) else kv)
  else m ++ [(k, v)]

/-- Apply a sequence of `IndexMap::insert`s in order. -/
def insertAll (m : List (String × YVal)) (l : List (String × YVal)) :
    List (String × YVal) :=
  l.foldl (fun acc kv => imInsert acc kv.1 kv.2) m

/-- The raw metadata entries as `to_string()`ed map values, in map order. -/
def rawPairs (md : MdMetadata) : List (String × YVal) :=
  md.map.map (fun kv => (kv.1, YVal.ofRaw kv.2))

/-- The typed special entries that `frontmatter` writes over the raw ones:
`author`, `source`, `time`, `servings` when populated, and `tags` when
non-empty, in that order. -/
def specialInserts (md : MdMetadata) : List (String × YVal) :=
  (match md.author with
   | some a => [("author", YVal.ofTyped (.authorV a))]
   | none => [])
  ++ (match md.source with
      | some s => [("source", YVal.ofTyped (.sourceV s))]
      | none => [])
  ++ (match md.time with
      | some t => [("time", YVal.ofTyped (.timeV t))]
      | none => [])
  ++ (match md.servings with
      | some s => [("servings", YVal.ofTyped (.servingsV s))]
      | none => [])
  ++ (if md.tags.isEmpty then [] else [("tags", YVal.ofTyped (.tagsV md.tags))])

/-- The mapping `frontmatter` builds before serializing: the `name` entry
when the option asks for it, then every raw map entry, then the typed
special keys overriding. -/
def buildMap (md : MdMetadata) (nm : String) (opts : Options) :
    List (String × YVal) :=
  insertAll
    (insertAll (if opts.front_matter_name then [("name", YVal.ofRaw nm)] else [])
      (rawPairs md))
    (specialInserts md)

def showTyped : TypedVal → String
  | .authorV v => v
  | .sourceV v => v
  | .timeV v => toString v
  | .servingsV v => String.intercalate ", " (v.map toString)
  | .tagsV v => String.intercalate ", " v

def showYVal : YVal → String
  | .ofRaw s => s
  | .ofTyped t => showTyped t

/-- The `frontmatter` function as the list of lines it writes.  It returns
immediately, writing nothing, when the raw metadata map is empty
(`cooklang-to-md/src/lib.rs` lines 141-143); otherwise it writes the fenced
YAML block. -/
def frontmatterLines (md : MdMetadata) (nm : String) (opts : Options) :
    List String :=
  if md.map.isEmpty then []
  else
    "---" :: ((buildMap md nm opts).map (fun kv => kv.1 ++ ": " ++ showYVal kv.2)
      ++ ["---", ""])

/-- The keys whose typed field is populated, hence overridden in the built
mapping. -/
def specialKeys (md : MdMetadata) : List String :=
  (specialInserts md).map Prod.fst

end CookMd

namespace ServePath

/-! ## `as_path` — embedded from `src/serve/handlers/recipe.rs` lines 316-336.

Paths are modelled as absolute/relative flags over component lists.  The
filesystem-dependent pieces — `Path::canonicalize` and the
`DirEntry::new`/`RecipeEntry::try_from` constructors — are oracles the
function receives; everything between them is the embedded logic. -/

structure FsPath where
  absolute : Bool
  comps : List String
  deriving DecidableEq, Repr

def FsPath.isRelative (p : FsPath) : Bool := !p.absolute

/-- The `Utf8PathBuf::join` operation for the relative-argument case the code guards. -/
def FsPath.joinP (base p : FsPath) : FsPath :=
  if p.absolute then p else { absolute := base.absolute, comps := base.comps ++ p.comps }

/-- Component-wise removal of a leading base. -/
def dropBase : List String → List String → Option (List String)
  | [], rest => some rest
  | _ :: _, [] => none
  | b :: bs, p :: ps => if b = p then dropBase bs ps else none

/-- Pathwise removal of a leading base, as `strip` of a prefix does in the
handler: it succeeds exactly when the base is a component-wise
lead of the path, yielding the relative remainder. -/
def stripBase (p base : FsPath) : Option FsPath :=
  if base.absolute = p.absolute then
    (dropBase base.comps p.comps).map (fun r => { absolute := false, comps := r })
  else none

structure RecipeEntryM where
  path : FsPath
  deriving DecidableEq, Repr

/-- The candidate path `as_path` builds before canonicalizing: the parsed
recipe path, joined onto `relative_to` when it is relative. -/
def candidate (parseP : String → FsPath) (recipe_path : String)
    (relative_to : Option FsPath) : FsPath :=
  let path0 := parseP recipe_path
  match relative_to with
  | some base => if path0.isRelative then base.joinP path0 else path0
  | none => path0

/-- The `as_path` lookup: canonicalize the candidate, require the result to lie inside
the base path (the strip must succeed), and only then construct an entry. -/
def as_path (parseP : String → FsPath) (canonicalize : FsPath → Option FsPath)
    (mkEntry : FsPath → Option RecipeEntryM) (recipe_path : String)
    (relative_to : Option FsPath) (base_path : FsPath) : Option RecipeEntryM :=
  match canonicalize (candidate parseP recipe_path relative_to) with
  | none => none
  | some p =>
    match stripBase p base_path with
    | none => none
    | some safe => mkEntry safe

end ServePath

namespace Cooklang

/-! Concrete runs of the pipeline used as witnesses. -/

/-- The recipe the default parser produces for the input `"x"`. -/
def recipeX : Recipe :=
  { rname := "r", metadata := { map := [], servings := none },
    sections := [{ sname := none,
                   content := [Content.step { number := 1, items := [Item.text "x"] }] }],
    ingredients := [], cookware := [], timers := [], inlineQuantities := [] }

/-- The recipe the default parser produces for the input `"@&flour"` — a
"references previous" mention with no earlier same-named definition, which
resolves to a fresh definition with no relation. -/
def demoRecipe : Recipe :=
  { rname := "demo", metadata := { map := [], servings := none },
    sections := [{ sname := none,
                   content := [Content.step { number := 1, items := [Item.ingredient 0] }] }],
    ingredients := [{ iname := "flour",
                      modifiers := { isOptional := false, isHidden := false,
                                     isNew := false, isRef := true },
                      quantity := none, relation := none }],
    cookware := [], timers := [], inlineQuantities := [] }

end Cooklang

/-! # Theorems -/

open Cooklang CookMd ServePath

section Lemmas

theorem scaleValue_one (v : Value) : scaleValue 1 v = v := by
  cases v <;> simp [scaleValue]

theorem scaleQuantity_one (q : Quantity) : scaleQuantity 1 q = q := by
  simp [scaleQuantity, scaleValue_one]

end Lemmas

/-- C6: the default `Extensions` configuration enables all eight grammar
features (multiline steps, ingredient modifiers, ingredient note, ingredient
alias, sections, advanced units, modes, temperature), and `INGREDIENT_ALL`
is exactly the union of the ingredient modifiers, alias and note flags: it
contains those three and none of the other five. -/
theorem extensions_default_enables_all :
    (Extensions.containsF Extensions.defaultExt Extensions.MULTINE_STEPS = true
      ∧ Extensions.containsF Extensions.defaultExt Extensions.INGREDIENT_MODIFIERS = true
      ∧ Extensions.containsF Extensions.defaultExt Extensions.INGREDIENT_NOTE = true
      ∧ Extensions.containsF Extensions.defaultExt Extensions.INGREDIENT_ALIAS = true
      ∧ Extensions.containsF Extensions.defaultExt Extensions.SECTIONS = true
      ∧ Extensions.containsF Extensions.defaultExt Extensions.ADVANCED_UNITS = true
      ∧ Extensions.containsF Extensions.defaultExt Extensions.MODES = true
      ∧ Extensions.containsF Extensions.defaultExt Extensions.TEMPERATURE = true)
    ∧ Extensions.INGREDIENT_ALL =
        (Extensions.INGREDIENT_MODIFIERS ||| Extensions.INGREDIENT_ALIAS |||
          Extensions.INGREDIENT_NOTE)
    ∧ (Extensions.containsF Extensions.INGREDIENT_ALL Extensions.INGREDIENT_MODIFIERS = true
      ∧ Extensions.containsF Extensions.INGREDIENT_ALL Extensions.INGREDIENT_ALIAS = true
      ∧ Extensions.containsF Extensions.INGREDIENT_ALL Extensions.INGREDIENT_NOTE = true
      ∧ Extensions.containsF Extensions.INGREDIENT_ALL Extensions.MULTINE_STEPS = false
      ∧ Extensions.containsF Extensions.INGREDIENT_ALL Extensions.SECTIONS = false
      ∧ Extensions.containsF Extensions.INGREDIENT_ALL Extensions.ADVANCED_UNITS = false
      ∧ Extensions.containsF Extensions.INGREDIENT_ALL Extensions.MODES = false
      ∧ Extensions.containsF Extensions.INGREDIENT_ALL Extensions.TEMPERATURE = false) := by
  decide

/-- C4: `default_scale()` — `scale` with factor 1 — is an identity on every
parsed recipe: every `Value::Number` and both bounds of every `Value::Range`
are reproduced unchanged (the whole recipe is reproduced), and `Value::Text`
is never mutated by scaling with any factor. -/
theorem default_scale_identity :
    (∀ r : Recipe, defaultScale r = r)
    ∧ (∀ (k : ℚ) (s : String), scaleValue k (Value.text s) = Value.text s) := by
  constructor
  · intro r
    have hoq : ∀ o : Option Quantity, o.map (scaleQuantity 1) = o := by
      intro o; cases o <;> simp [scaleQuantity_one]
    have hq : scaleQuantity (1 : ℚ) = id := funext fun q => by simp [scaleQuantity_one]
    have h1 : scaleIngredient (1 : ℚ) = id := funext fun i => by
      cases i; simp [scaleIngredient, hoq]
    have h2 : scaleCookware (1 : ℚ) = id := funext fun c => by
      cases c; simp [scaleCookware, hoq]
    have h3 : scaleTimer (1 : ℚ) = id := funext fun t => by
      cases t; simp [scaleTimer, hoq]
    cases r
    simp [defaultScale, scaleRecipe, hq, h1, h2, h3, List.map_id]
  · intro k s; simp [scaleValue]

/-- C10: when a recipe's raw metadata map is empty the Markdown renderer
emits no YAML front matter at all — no fenced block and no `name` key —
whatever the options and typed metadata fields say. -/
theorem frontmatter_empty_map_writes_nothing (md : MdMetadata) (nm : String)
    (opts : Options) (h : md.map = []) : frontmatterLines md nm opts = [] := by
  simp [frontmatterLines, h]

/-- Witness for C10: a metadata value with an empty raw map but populated
typed fields, rendered with `front_matter_name` enabled, writes nothing. -/
theorem frontmatter_empty_map_writes_nothing_witness :
    frontmatterLines
      { map := [], author := some "ada", source := some "book", time := some 5,
        servings := some [2], tags := ["dinner"], description := some "d" }
      "Pancakes" defaultOptions = [] :=
  frontmatter_empty_map_writes_nothing _ _ _ rfl

/-- C9: `as_path` yields a recipe entry only when the canonicalized
candidate path lies inside the base path — the strip of the base succeeds;
whenever canonicalization fails, or the canonical path is outside the base
path, it returns `none`, so the path route of the injected recipe-reference
checker cannot report a file outside the base directory. -/
theorem as_path_stays_inside_base (parseP : String → FsPath)
    (canonicalize : FsPath → Option FsPath) (mkEntry : FsPath → Option RecipeEntryM)
    (recipe_path : String) (relative_to : Option FsPath) (base_path : FsPath) :
    (canonicalize (candidate parseP recipe_path relative_to) = none →
      as_path parseP canonicalize mkEntry recipe_path relative_to base_path = none)
    ∧ (∀ p, canonicalize (candidate parseP recipe_path relative_to) = some p →
        stripBase p base_path = none →
        as_path parseP canonicalize mkEntry recipe_path relative_to base_path = none)
    ∧ (∀ e, as_path parseP canonicalize mkEntry recipe_path relative_to base_path = some e →
        ∃ p safe, canonicalize (candidate parseP recipe_path relative_to) = some p
          ∧ stripBase p base_path = some safe ∧ mkEntry safe = some e) := by
  refine ⟨?_, ?_, ?_⟩
  · intro h; simp [as_path, h]
  · intro p hp hs; simp [as_path, hp, hs]
  · intro e he
    rcases hc : canonicalize (candidate parseP recipe_path relative_to) with _ | p
    · simp [as_path, hc] at he
    · rcases hs : stripBase p base_path with _ | safe
      · simp [as_path, hc, hs] at he
      · simp only [as_path, hc, hs] at he
        exact ⟨p, safe, rfl, hs, he⟩

/-- Witness for C9: with a canonicalizer sending the candidate to
`/etc/passwd` and base path `/home/user/recipes`, `as_path` returns `none`
even though the entry constructor would accept anything. -/
theorem as_path_stays_inside_base_witness :
    as_path (fun _ => { absolute := false, comps := ["x"] })
      (fun _ => some { absolute := true, comps := ["etc", "passwd"] })
      (fun p => some { path := p }) "x" none
      { absolute := true, comps := ["home", "user", "recipes"] } = none :=
  (as_path_stays_inside_base _ _ _ _ _ _).2.1
    { absolute := true, comps := ["etc", "passwd"] } rfl (by decide)

section IndexMapLemmas

theorem lookup_map_self (m : List (String × YVal)) (k : String) (v : YVal)
    (h : m.any (fun kv => kv.1 == k) = true) :
    (m.map (fun kv => if kv.1 == k then (k, v) else kv)).lookup k = some v := by
  induction m with
  | nil => cases h
  | cons a m ih =>
    rw [List.any_cons, Bool.or_eq_true] at h
    rw [List.map_cons]
    by_cases ha : (a.1 == k) = true
    · simp only [ha, if_true]
      simp [List.lookup]
    · simp only [ha, if_false, Bool.false_eq_true]
      have hne : (k == a.1) = false := by
        refine beq_eq_false_iff_ne.mpr ?_
        intro he
        exact ha (beq_iff_eq.mpr he.symm)
      rw [List.lookup, hne]
      exact ih (h.resolve_left (by simp [ha]))

theorem lookup_none_append (m : List (String × YVal)) (k : String) (v : YVal)
    (h : m.any (fun kv => kv.1 == k) = false) :
    (m ++ [(k, v)]).lookup k = some v := by
  induction m with
  | nil => simp [List.lookup]
  | cons a m ih =>
    rw [List.any_cons, Bool.or_eq_false_iff] at h
    rw [List.cons_append, List.lookup]
    have hne : (k == a.1) = false := by
      refine beq_eq_false_iff_ne.mpr ?_
      intro he
      rw [he.symm] at h
      simp at h
    rw [hne]
    exact ih h.2

theorem lookup_imInsert_self (m : List (String × YVal)) (k : String) (v : YVal) :
    (imInsert m k v).lookup k = some v := by
  unfold imInsert
  by_cases h : m.any (fun kv => kv.1 == k) = true
  · rw [if_pos h]; exact lookup_map_self m k v h
  · rw [if_neg h]
    exact lookup_none_append m k v (Bool.eq_false_iff.mpr h)

theorem lookup_imInsert_ne (m : List (String × YVal)) (k : String) (v : YVal)
    (k' : String) (h : k' ≠ k) : (imInsert m k v).lookup k' = m.lookup k' := by
  unfold imInsert
  have hk : (k' == k) = false := beq_eq_false_iff_ne.mpr h
  by_cases hany : m.any (fun kv => kv.1 == k) = true
  · rw [if_pos hany]
    clear hany
    induction m with
    | nil => rfl
    | cons a m ih =>
      rw [List.map_cons, List.lookup, List.lookup]
      by_cases ha : (a.1 == k) = true
      · simp only [ha, if_true]
        rw [show a.1 = k from beq_iff_eq.mp ha, hk]
        exact ih
      · simp only [ha, if_false, Bool.false_eq_true]
        cases hcmp : (k' == a.1) with
        | true => rfl
        | false => exact ih
  · rw [if_neg hany]
    clear hany
    induction m with
    | nil => simp [List.lookup, hk]
    | cons a m ih =>
      rw [List.cons_append, List.lookup, List.lookup]
      cases hcmp : (k' == a.1) with
      | true => rfl
      | false => exact ih

theorem lookup_imInsert_isSome (m : List (String × YVal)) (k : String) (v : YVal)
    (k' : String) (h : (m.lookup k').isSome = true) :
    ((imInsert m k v).lookup k').isSome = true := by
  by_cases he : k' = k
  · subst he; rw [lookup_imInsert_self]; rfl
  · rw [lookup_imInsert_ne m k v k' he]; exact h

theorem insertAll_cons (m : List (String × YVal)) (a : String × YVal)
    (l : List (String × YVal)) :
    insertAll m (a :: l) = insertAll (imInsert m a.1 a.2) l := rfl

theorem lookup_insertAll_notmem (l : List (String × YVal)) :
    ∀ (m : List (String × YVal)) (k : String), k ∉ l.map Prod.fst →
      (insertAll m l).lookup k = m.lookup k := by
  induction l with
  | nil => intro m k _; rfl
  | cons a l ih =>
    intro m k hk
    rw [List.map_cons, List.mem_cons] at hk
    push_neg at hk
    rw [insertAll_cons, ih _ k hk.2, lookup_imInsert_ne m a.1 a.2 k hk.1]

theorem lookup_insertAll_mem (l : List (String × YVal)) :
    ∀ (m : List (String × YVal)) (k : String) (v : YVal),
      (l.map Prod.fst).Nodup → (k, v) ∈ l → (insertAll m l).lookup k = some v := by
  induction l with
  | nil => intro m k v _ hm; cases hm
  | cons a l ih =>
    intro m k v hnd hm
    rw [List.map_cons, List.nodup_cons] at hnd
    rw [insertAll_cons]
    rcases List.mem_cons.mp hm with he | hm'
    · subst he
      rw [lookup_insertAll_notmem l _ k hnd.1, lookup_imInsert_self]
    · exact ih _ k v hnd.2 hm'

theorem lookup_insertAll_isSome (l : List (String × YVal)) :
    ∀ (m : List (String × YVal)) (k : String), ((m.lookup k).isSome = true) →
      ((insertAll m l).lookup k).isSome = true := by
  induction l with
  | nil => intro m k h; exact h
  | cons a l ih =>
    intro m k h
    rw [insertAll_cons]
    exact ih _ k (lookup_imInsert_isSome m a.1 a.2 k h)

theorem rawPairs_keys (md : MdMetadata) :
    (rawPairs md).map Prod.fst = md.map.map Prod.fst := by
  simp [rawPairs, List.map_map, Function.comp]

theorem specialKeys_nodup (md : MdMetadata) : (specialKeys md).Nodup := by
  rcases md with ⟨mp, author, source, time, servings, tags, desc⟩
  cases author <;> cases source <;> cases time <;> cases servings <;> cases tags <;>
    simp [specialKeys, specialInserts]

end IndexMapLemmas

section GateLemmas

theorem gateFails_iff (wae : Bool) (ds : List Diagnostic) :
    gateFails wae ds = true ↔ (hasErrorB ds = true ∨ (wae = true ∧ ds ≠ [])) := by
  cases wae <;> simp [gateFails, List.isEmpty_iff, List.isEmpty_eq_false]

theorem gateFails_false_iff (wae : Bool) (ds : List Diagnostic) :
    gateFails wae ds = false ↔ (hasErrorB ds = false ∧ (wae = true → ds = [])) := by
  cases wae <;> simp [gateFails, List.isEmpty_iff, List.isEmpty_eq_false]

theorem gateFails_nonempty (wae : Bool) (ds : List Diagnostic)
    (h : gateFails wae ds = true) : ds ≠ [] := by
  intro he
  subst he
  cases wae <;> simp [gateFails, hasErrorB] at h

theorem hasErrorB_append (a b : List Diagnostic) :
    hasErrorB (a ++ b) = (hasErrorB a || hasErrorB b) := by
  simp [hasErrorB, List.any_append]

end GateLemmas

/-- C1: for every input text, `CooklangParser::parse` either succeeds with a
recipe and the ordered diagnostics of the run, or fails with a
`SourceReport` satisfying the failure condition; and it fails exactly when
the run produced at least one Error-severity diagnostic or, with
`warnings_as_errors` set, any diagnostic at all. -/
theorem parse_failure_characterization (p : CooklangParser) (input rname : String) :
    (exceptIsError (p.parse input rname) = true ↔
      (hasErrorB (pipelineDiags p input) = true ∨
        (p.warningsAsErrors = true ∧ pipelineDiags p input ≠ [])))
    ∧ (∀ rep, p.parse input rname = .error rep →
        gateFails p.warningsAsErrors rep.diags = true)
    ∧ (∀ r w, p.parse input rname = .ok (r, w) → w = pipelineDiags p input) := by
  unfold CooklangParser.parse parserParse analyzeAst pipelineDiags
  by_cases h1 : gateFails p.warningsAsErrors (rawParse input p.extensions).2 = true
  · rw [if_pos h1, if_pos h1]
    refine ⟨iff_of_true rfl ((gateFails_iff _ _).mp h1), ?_, ?_⟩
    · intro rep hrep
      cases hrep
      exact h1
    · intro r w hok
      exact absurd hok (by simp)
  · rw [if_neg h1, if_neg h1]
    dsimp only
    have h1f := (gateFails_false_iff _ _).mp (Bool.eq_false_iff.mpr h1)
    by_cases h2 : gateFails p.warningsAsErrors
        (rawAnalyze (rawParse input p.extensions).1).2 = true
    · rw [if_pos h2]
      refine ⟨iff_of_true rfl ?_, ?_, ?_⟩
      · rcases (gateFails_iff _ _).mp h2 with he | ⟨hw, hne⟩
        · exact Or.inl (by rw [hasErrorB_append, he, Bool.or_true])
        · refine Or.inr ⟨hw, ?_⟩
          intro hnil
          exact hne (List.append_eq_nil.mp hnil).2
      · intro rep hrep
        cases hrep
        exact h2
      · intro r w hok
        exact absurd hok (by simp)
    · rw [if_neg h2]
      have h2f := (gateFails_false_iff _ _).mp (Bool.eq_false_iff.mpr h2)
      refine ⟨iff_of_false (by simp [exceptIsError]) ?_, ?_, ?_⟩
      · rintro (he | ⟨hw, hne⟩)
        · rw [hasErrorB_append, h1f.1, h2f.1] at he
          cases he
        · exact hne (by rw [h1f.2 hw, h2f.2 hw]; rfl)
      · intro rep hrep
        exact absurd hrep (by simp)
      · intro r w hok
        injection hok with hpair
        exact (congrArg Prod.snd hpair).symm

/-- Witness for C1: the default parser accepts the plain input `"x"` and
the diagnostics list that accompanies success is exactly the run's
(empty) pipeline diagnostics. -/
theorem parse_failure_characterization_witness :
    ([] : List Diagnostic) = pipelineDiags CooklangParser.new "x" :=
  (parse_failure_characterization CooklangParser.new "x" "r").2.2 recipeX [] (by rfl)

section AnalysisInvariant

theorem StLe_rfl (s : AnState) : StLe s s :=
  ⟨le_refl _, le_refl _, le_refl _, le_refl _⟩

theorem StLe_trans {a b c : AnState} (h1 : StLe a b) (h2 : StLe b c) : StLe a c :=
  ⟨le_trans h1.1 h2.1, le_trans h1.2.1 h2.2.1, le_trans h1.2.2.1 h2.2.2.1,
    le_trans h1.2.2.2 h2.2.2.2⟩

theorem ItemOkSt_mono {s1 s2 : AnState} (h : StLe s1 s2) {it : Item}
    (hit : ItemOkSt s1 it) : ItemOkSt s2 it := by
  cases it with
  | text s => trivial
  | ingredient i => exact lt_of_lt_of_le hit h.1
  | cookware i => exact lt_of_lt_of_le hit h.2.1
  | timer i => exact lt_of_lt_of_le hit h.2.2.1
  | inlineQuantity i => exact lt_of_lt_of_le hit h.2.2.2

theorem ContentOkSt_mono {s1 s2 : AnState} (h : StLe s1 s2) {c : Content}
    (hc : ContentOkSt s1 c) : ContentOkSt s2 c := by
  cases c with
  | step s => exact fun it hin => ItemOkSt_mono h (hc it hin)
  | text s => trivial

theorem SectionOkSt_mono {s1 s2 : AnState} (h : StLe s1 s2) {sec : Section}
    (hs : SectionOkSt s1 sec) : SectionOkSt s2 sec :=
  fun c hc => ContentOkSt_mono h (hs c hc)

theorem append_rel_ok {α : Type} (relOf : α → Option Nat) (l : List α) (x : α)
    (hx : ∀ j, relOf x = some j → j < l.length)
    (hok : ∀ a ∈ l, ∀ j, relOf a = some j → j < l.length) :
    ∀ a ∈ l ++ [x], ∀ j, relOf a = some j → j < (l ++ [x]).length := by
  intro a ha j hj
  rw [List.length_append, List.length_singleton]
  rcases List.mem_append.mp ha with ha | ha
  · exact lt_of_lt_of_le (hok a ha j hj) (Nat.le_succ _)
  · rw [List.mem_singleton.mp ha] at hj
    exact lt_of_lt_of_le (hx j hj) (Nat.le_succ _)

theorem resolveIdx_mono {α : Type} (getName : α → String) (l : List α)
    (m : Modifiers) (nm : String) (fresh : Option Nat → α) :
    l.length ≤ (resolveIdx getName l m nm fresh).1.length ∧
      (resolveIdx getName l m nm fresh).2.1 < (resolveIdx getName l m nm fresh).1.length := by
  unfold resolveIdx
  by_cases hr : m.isRef = true
  · rw [if_pos hr]
    cases findLastIdxF (fun a => getName a == nm) l with
    | some i => simp
    | none => simp
  · rw [if_neg hr]
    by_cases hn : m.isNew = true
    · rw [if_pos hn]; simp
    · rw [if_neg hn]
      cases hf : findLastIdxF (fun a => getName a == nm) l with
      | some i => exact ⟨le_refl _, i.isLt⟩
      | none => simp

theorem resolveIdx_rels {α : Type} (getName : α → String) (relOf : α → Option Nat)
    (l : List α) (m : Modifiers) (nm : String) (fresh : Option Nat → α)
    (hfresh : ∀ o, relOf (fresh o) = o)
    (hok : ∀ a ∈ l, ∀ j, relOf a = some j → j < l.length) :
    ∀ a ∈ (resolveIdx getName l m nm fresh).1, ∀ j, relOf a = some j →
      j < (resolveIdx getName l m nm fresh).1.length := by
  unfold resolveIdx
  by_cases hr : m.isRef = true
  · rw [if_pos hr]
    cases hf : findLastIdxF (fun a => getName a == nm) l with
    | some i =>
      refine append_rel_ok relOf l _ ?_ hok
      intro j hj
      rw [hfresh] at hj
      injection hj with hj
      rw [← hj]
      exact i.isLt
    | none =>
      refine append_rel_ok relOf l _ ?_ hok
      intro j hj
      rw [hfresh] at hj
      cases hj
  · rw [if_neg hr]
    by_cases hn : m.isNew = true
    · rw [if_pos hn]
      refine append_rel_ok relOf l _ ?_ hok
      intro j hj
      rw [hfresh] at hj
      cases hj
    · rw [if_neg hn]
      cases hf : findLastIdxF (fun a => getName a == nm) l with
      | some i => exact hok
      | none =>
        refine append_rel_ok relOf l _ ?_ hok
        intro j hj
        rw [hfresh] at hj
        cases hj

theorem anToken_spec (st : AnState) (t : Token) :
    StLe st (anToken st t).1 ∧
      (StOk st → StOk (anToken st t).1 ∧
        ∀ it ∈ (anToken st t).2, ItemOkSt (anToken st t).1 it) := by
  cases t with
  | ingredientTok mods nm qty =>
    have hm := resolveIdx_mono Ingredient.iname st.ingredients mods nm
      (fun rel => { iname := nm, modifiers := mods, quantity := qty.map parseQuantity,
                    relation := rel })
    refine ⟨⟨hm.1, le_refl _, le_refl _, le_refl _⟩, ?_⟩
    intro hok
    refine ⟨⟨?_, hok.2⟩, ?_⟩
    · exact resolveIdx_rels Ingredient.iname Ingredient.relation st.ingredients mods nm
        _ (fun o => rfl) hok.1
    · intro it hit
      rw [List.mem_singleton.mp hit]
      exact hm.2
  | cookwareTok mods nm qty =>
    have hm := resolveIdx_mono Cookware.cname st.cookware mods nm
      (fun rel => { cname := nm, modifiers := mods, quantity := qty.map parseQuantity,
                    relation := rel })
    refine ⟨⟨le_refl _, hm.1, le_refl _, le_refl _⟩, ?_⟩
    intro hok
    refine ⟨⟨hok.1, ?_⟩, ?_⟩
    · exact resolveIdx_rels Cookware.cname Cookware.relation st.cookware mods nm
        _ (fun o => rfl) hok.2
    · intro it hit
      rw [List.mem_singleton.mp hit]
      exact hm.2
  | timerTok nm qty =>
    refine ⟨⟨le_refl _, le_refl _, by simp [anToken], le_refl _⟩, ?_⟩
    intro hok
    refine ⟨⟨hok.1, hok.2⟩, ?_⟩
    intro it hit
    rw [List.mem_singleton.mp hit]
    show st.timers.length < (st.timers ++ [_]).length
    simp
  | inlineQtyTok q =>
    refine ⟨⟨le_refl _, le_refl _, le_refl _, by simp [anToken]⟩, ?_⟩
    intro hok
    refine ⟨⟨hok.1, hok.2⟩, ?_⟩
    intro it hit
    rw [List.mem_singleton.mp hit]
    show st.inlineQuantities.length < (st.inlineQuantities ++ [_]).length
    simp
  | textTok s =>
    refine ⟨StLe_rfl st, fun hok => ⟨hok, ?_⟩⟩
    intro it hit
    rw [List.mem_singleton.mp hit]
    trivial
  | metaLine k v => exact ⟨StLe_rfl st, fun hok => ⟨hok, by intro it hit; cases hit⟩⟩
  | sectionMark nm => exact ⟨StLe_rfl st, fun hok => ⟨hok, by intro it hit; cases hit⟩⟩
  | eol => exact ⟨StLe_rfl st, fun hok => ⟨hok, by intro it hit; cases hit⟩⟩
  | blank => exact ⟨StLe_rfl st, fun hok => ⟨hok, by intro it hit; cases hit⟩⟩

theorem anTokens_spec (toks : List Token) :
    ∀ st : AnState, StLe st (anTokens st toks).1 ∧
      (StOk st → StOk (anTokens st toks).1 ∧
        ∀ it ∈ (anTokens st toks).2, ItemOkSt (anTokens st toks).1 it) := by
  induction toks with
  | nil => intro st; exact ⟨StLe_rfl st, fun hok => ⟨hok, by intro it hit; cases hit⟩⟩
  | cons t ts ih =>
    intro st
    have h1 := anToken_spec st t
    have h2 := ih (anToken st t).1
    rw [anTokens]
    refine ⟨StLe_trans h1.1 h2.1, ?_⟩
    intro hok
    have hok1 := h1.2 hok
    have hok2 := h2.2 hok1.1
    refine ⟨hok2.1, ?_⟩
    intro it hit
    rcases List.mem_append.mp hit with hin | hin
    · exact ItemOkSt_mono h2.1 (hok1.2 it hin)
    · exact hok2.2 it hin

theorem anSteps_spec (steps : List (List Token)) :
    ∀ (st : AnState) (n : Nat), StLe st (anSteps st n steps).1 ∧
      (StOk st → StOk (anSteps st n steps).1 ∧
        ∀ c ∈ (anSteps st n steps).2, ContentOkSt (anSteps st n steps).1 c) := by
  induction steps with
  | nil => intro st n; exact ⟨StLe_rfl st, fun hok => ⟨hok, by intro c hc; cases hc⟩⟩
  | cons toks rest ih =>
    intro st n
    have h1 := anTokens_spec toks st
    have h2 := ih (anTokens st toks).1 (n + 1)
    rw [anSteps]
    refine ⟨StLe_trans h1.1 h2.1, ?_⟩
    intro hok
    have hok1 := h1.2 hok
    have hok2 := h2.2 hok1.1
    refine ⟨hok2.1, ?_⟩
    intro c hc
    rcases List.mem_cons.mp hc with he | hin
    · subst he
      intro it hit
      exact ItemOkSt_mono h2.1 (hok1.2 it hit)
    · exact hok2.2 c hin

theorem anSections_spec (secs : List RawSection) :
    ∀ st : AnState, StLe st (anSections st secs).1 ∧
      (StOk st → StOk (anSections st secs).1 ∧
        ∀ sec ∈ (anSections st secs).2, SectionOkSt (anSections st secs).1 sec) := by
  induction secs with
  | nil => intro st; exact ⟨StLe_rfl st, fun hok => ⟨hok, by intro s hs; cases hs⟩⟩
  | cons s rest ih =>
    intro st
    have h1 := anSteps_spec s.steps st 1
    have h2 := ih (anSteps st 1 s.steps).1
    rw [anSections]
    refine ⟨StLe_trans h1.1 h2.1, ?_⟩
    intro hok
    have hok1 := h1.2 hok
    have hok2 := h2.2 hok1.1
    refine ⟨hok2.1, ?_⟩
    intro sec hsec
    rcases List.mem_cons.mp hsec with he | hin
    · subst he
      intro c hc
      exact ContentOkSt_mono h2.1 (hok1.2 c hc)
    · exact hok2.2 sec hin

theorem StOk_empty : StOk emptyAnState := by
  constructor
  · intro ing hin; cases hin
  · intro cw hin; cases hin

end AnalysisInvariant

/-- C3: every index stored in an item or a relation of a recipe produced by
`CooklangParser::parse` is a valid index into the owning recipe's
corresponding list (`ingredients`, `cookware`, `timers`,
`inline_quantities`), so direct indexing during rendering never goes out of
range — including when a "references previous" mention has no earlier
same-named definition. -/
theorem analysis_indices_valid (p : CooklangParser) (input rname : String)
    (r : Recipe) (w : List Diagnostic)
    (h : p.parse input rname = .ok (r, w)) : recipeValidB r = true := by
  unfold CooklangParser.parse parserParse analyzeAst at h
  by_cases h1 : gateFails p.warningsAsErrors (rawParse input p.extensions).2 = true
  · rw [if_pos h1] at h
    exact absurd h (by simp)
  · rw [if_neg h1] at h
    dsimp only at h
    by_cases h2 : gateFails p.warningsAsErrors
        (rawAnalyze (rawParse input p.extensions).1).2 = true
    · rw [if_pos h2] at h
      exact absurd h (by simp)
    · rw [if_neg h2] at h
      injection h with hpair
      rw [Prod.mk.injEq] at hpair
      obtain ⟨hrec, -⟩ := hpair
      subst hrec
      have hspec := anSections_spec (rawParse input p.extensions).1.sections emptyAnState
      have hok := hspec.2 StOk_empty
      unfold rawAnalyze
      simp only [recipeValidB, Bool.and_eq_true, List.all_eq_true]
      refine ⟨⟨?_, ?_⟩, ?_⟩
      · intro sec hsec c hc
        have hcontent := hok.2 sec hsec c hc
        cases c with
        | text s => rfl
        | step s =>
          simp only [contentValidB, List.all_eq_true]
          intro it hit
          have := hcontent it hit
          cases it with
          | text v => rfl
          | ingredient i => simpa [itemValidB] using this
          | cookware i => simpa [itemValidB] using this
          | timer i => simpa [itemValidB] using this
          | inlineQuantity i => simpa [itemValidB] using this
      · intro ing hin
        cases hrel : ing.relation with
        | none => rfl
        | some j => simpa [relValidB] using hok.1.1 ing hin j hrel
      · intro cw hin
        cases hrel : cw.relation with
        | none => rfl
        | some j => simpa [relValidB] using hok.1.2 cw hin j hrel

/-- Witness for C3: the recipe parsed from `"@&flour"` — a dangling
"references previous" mention — has every stored index in range. -/
theorem analysis_indices_valid_witness : recipeValidB demoRecipe = true :=
  analysis_indices_valid CooklangParser.new "@&flour" "demo" demoRecipe
    [warnDiag "reference to undefined entry"] (by rfl)

/-- C2: the parse pipeline is total and never aborts: for every input text,
however malformed, `CooklangParser::parse` returns either a recipe with its
diagnostics or a `SourceReport`; every failure report is non-empty — failure
only ever happens through recorded diagnostics, never through a panic —
and lexing is line-local, so a malformed line is turned into diagnostics
without discarding the tokens of any other line. -/
theorem parse_never_aborts (p : CooklangParser) (input rname : String) :
    ((∃ r w, p.parse input rname = .ok (r, w)) ∨
      (∃ rep, p.parse input rname = .error rep ∧ rep.diags ≠ []))
    ∧ (∀ (exts : Nat) (l1 l2 : List (List Char)),
        lexLines exts (l1 ++ l2) =
          ((lexLines exts l1).1 ++ (lexLines exts l2).1,
           (lexLines exts l1).2 ++ (lexLines exts l2).2)) := by
  constructor
  · unfold CooklangParser.parse parserParse analyzeAst
    by_cases h1 : gateFails p.warningsAsErrors (rawParse input p.extensions).2 = true
    · rw [if_pos h1]
      exact Or.inr ⟨_, rfl, gateFails_nonempty _ _ h1⟩
    · rw [if_neg h1]
      dsimp only
      by_cases h2 : gateFails p.warningsAsErrors
          (rawAnalyze (rawParse input p.extensions).1).2 = true
      · rw [if_pos h2]
        exact Or.inr ⟨_, rfl, gateFails_nonempty _ _ h2⟩
      · rw [if_neg h2]
        exact Or.inl ⟨_, _, rfl⟩
  · intro exts l1 l2
    induction l1 with
    | nil => rfl
    | cons l ls ih =>
      rw [List.cons_append, lexLines, lexLines, ih]
      simp [List.append_assoc]

/-- C8: in the YAML mapping the Markdown renderer builds, every raw
metadata map entry appears under its key; a raw entry whose key is not an
overridden special key keeps its raw string value; and for each special key
(`author`, `source`, `time`, `servings`, and `tags` when non-empty) whose
typed field is populated, the typed structured value is what the mapping
holds under that key — typed fields take precedence, all other raw entries
are preserved. -/
theorem frontmatter_typed_precedence (md : MdMetadata) (nm : String) (opts : Options)
    (hnd : (md.map.map Prod.fst).Nodup) :
    (∀ k v, (k, v) ∈ md.map → ((buildMap md nm opts).lookup k).isSome = true)
    ∧ (∀ k v, (k, v) ∈ md.map → k ∉ specialKeys md →
        (buildMap md nm opts).lookup k = some (.ofRaw v))
    ∧ (∀ a, md.author = some a →
        (buildMap md nm opts).lookup "author" = some (.ofTyped (.authorV a)))
    ∧ (∀ s, md.source = some s →
        (buildMap md nm opts).lookup "source" = some (.ofTyped (.sourceV s)))
    ∧ (∀ t, md.time = some t →
        (buildMap md nm opts).lookup "time" = some (.ofTyped (.timeV t)))
    ∧ (∀ s, md.servings = some s →
        (buildMap md nm opts).lookup "servings" = some (.ofTyped (.servingsV s)))
    ∧ (md.tags ≠ [] →
        (buildMap md nm opts).lookup "tags" = some (.ofTyped (.tagsV md.tags))) := by
  have hraw : ∀ k v, (k, v) ∈ md.map →
      ((insertAll (if opts.front_matter_name then [("name", YVal.ofRaw nm)] else [])
        (rawPairs md)).lookup k) = some (.ofRaw v) := by
    intro k v hm
    refine lookup_insertAll_mem (rawPairs md) _ k (.ofRaw v) ?_ ?_
    · rw [rawPairs_keys]; exact hnd
    · exact List.mem_map_of_mem (fun kv => (kv.1, YVal.ofRaw kv.2)) hm
  have hspec : ∀ k tv, (k, YVal.ofTyped tv) ∈ specialInserts md →
      (buildMap md nm opts).lookup k = some (.ofTyped tv) := by
    intro k tv hm
    exact lookup_insertAll_mem (specialInserts md) _ k (.ofTyped tv)
      (specialKeys_nodup md) hm
  refine ⟨?_, ?_, ?_, ?_, ?_, ?_, ?_⟩
  · intro k v hm
    exact lookup_insertAll_isSome (specialInserts md) _ k (by rw [hraw k v hm]; rfl)
  · intro k v hm hk
    unfold buildMap
    rw [lookup_insertAll_notmem (specialInserts md) _ k hk]
    exact hraw k v hm
  · intro a ha
    exact hspec "author" (.authorV a) (by simp [specialInserts, ha])
  · intro s hs
    exact hspec "source" (.sourceV s) (by simp [specialInserts, hs])
  · intro t ht
    exact hspec "time" (.timeV t) (by simp [specialInserts, ht])
  · intro s hs
    exact hspec "servings" (.servingsV s) (by simp [specialInserts, hs])
  · intro ht
    exact hspec "tags" (.tagsV md.tags)
      (by simp [specialInserts, List.isEmpty_iff, ht])

/-- Witness for C8: a metadata map with a raw `author` entry, a raw custom
entry and a populated typed author: the custom entry keeps its raw value,
while `author` holds the typed value. -/
theorem frontmatter_typed_precedence_witness :
    ((buildMap
        { map := [("author", "raw text"), ("difficulty", "easy")],
          author := some "Ada", source := none, time := none, servings := none,
          tags := [], description := none } "Cake" defaultOptions).lookup
      "difficulty" = some (.ofRaw "easy"))
    ∧ ((buildMap
        { map := [("author", "raw text"), ("difficulty", "easy")],
          author := some "Ada", source := none, time := none, servings := none,
          tags := [], description := none } "Cake" defaultOptions).lookup
      "author" = some (.ofTyped (.authorV "Ada"))) := by
  constructor
  · exact (frontmatter_typed_precedence _ "Cake" defaultOptions (by decide)).2.1
      "difficulty" "easy" (by decide) (by decide)
  · exact (frontmatter_typed_precedence _ "Cake" defaultOptions (by decide)).2.2.1
      "Ada" rfl

/-- C7: in the rendered "## Ingredients" section, an entry whose modifiers
make `should_be_listed()` false produces no line; every body line of the
section comes from a listed entry; and a listed entry with a non-empty
grouped quantity has its line show the quantity before the display name. -/
theorem md_hidden_ingredients_omitted :
    (∀ e : GroupEntry, e.ingredient.should_be_listed = false → ingredientLine e = none)
    ∧ (∀ (b : Bool) (entries : List GroupEntry) (l : String),
        l ∈ renderIngredients b entries →
        l = "## Ingredients" ∨ l = "" ∨
          ∃ e ∈ entries, e.ingredient.should_be_listed = true ∧ ingredientLine e = some l)
    ∧ (∀ e : GroupEntry, e.ingredient.should_be_listed = true →
        e.quantity.is_empty = false →
        ingredientLine e = some ("- " ++ ("*" ++ e.quantity.text ++ "* ")
          ++ e.ingredient.display_name
          ++ (if e.ingredient.is_optional then " (optional)" else "")
          ++ (match e.ingredient.note with
              | some n => " (" ++ n ++ ")"
              | none => ""))) := by
  refine ⟨?_, ?_, ?_⟩
  · intro e h; simp [ingredientLine, h]
  · intro b entries l hl
    unfold renderIngredients at hl
    by_cases hb : b = true
    · simp [hb] at hl
    · simp only [hb, if_false, Bool.false_eq_true, if_neg] at hl
      rcases List.mem_cons.mp hl with h | h
      · exact Or.inl h
      · rcases List.mem_append.mp h with h | h
        · rcases List.mem_filterMap.mp h with ⟨e, he, hline⟩
          refine Or.inr (Or.inr ⟨e, he, ?_, hline⟩)
          cases hsl : e.ingredient.should_be_listed with
          | false => simp [ingredientLine, hsl] at hline
          | true => rfl
        · exact Or.inr (Or.inl (List.mem_singleton.mp h))
  · intro e h1 h2
    simp [ingredientLine, h1, h2]

section GroupingLemmas

theorem foldl_bind_none (c : Converter) (qs : List Quantity) :
    qs.foldl (fun acc q2 => acc.bind (fun a => addQuantity c a q2))
      (none : Option Quantity) = none := by
  induction qs with
  | nil => rfl
  | cons q qs ih => simpa using ih

theorem sumAll_cons (c : Converter) (q q2 : Quantity) (qs : List Quantity) :
    sumAll c q (q2 :: qs) =
      match addQuantity c q q2 with
      | some b => sumAll c b qs
      | none => none := by
  unfold sumAll
  rw [List.foldl_cons]
  have hb : ((some q).bind fun a => addQuantity c a q2) = addQuantity c q q2 := rfl
  rw [hb]
  cases addQuantity c q q2 with
  | none => exact foldl_bind_none c qs
  | some b => rfl

theorem addQuantity_keeps (c : Converter) (a q2 b : Quantity)
    (h : addQuantity c a q2 = some b) :
    b.unit = a.unit ∧ isNumeric b = true := by
  unfold addQuantity at h
  cases hv : a.value with
  | number n =>
    rw [hv] at h
    cases hc : convertAmount c q2 a.unit with
    | none => rw [hc] at h; exact absurd h (by simp)
    | some x =>
      rw [hc] at h
      obtain rfl : ({ value := .number (n + x), unit := a.unit } : Quantity) = b :=
        Option.some.injEq _ _ ▸ h
      exact ⟨rfl, rfl⟩
  | range x y => rw [hv] at h; exact absurd h (by simp)
  | text s => rw [hv] at h; exact absurd h (by simp)

theorem addQuantity_isSome (c : Converter) (a q2 : Quantity)
    (ha : isNumeric a = true) :
    (addQuantity c a q2).isSome = (convertAmount c q2 a.unit).isSome := by
  unfold addQuantity
  cases hv : a.value with
  | number n => cases convertAmount c q2 a.unit <;> simp
  | range x y => rw [isNumeric, hv] at ha; cases ha
  | text s => rw [isNumeric, hv] at ha; cases ha

/-- All quantities of the tail are summable into the head exactly when each
one converts to the head's unit. -/
theorem sumAll_isSome (c : Converter) (qs : List Quantity) :
    ∀ q : Quantity, isNumeric q = true →
      ((sumAll c q qs).isSome =
        qs.all (fun q2 => (convertAmount c q2 q.unit).isSome)) := by
  induction qs with
  | nil => intro q _; rfl
  | cons q2 qs ih =>
    intro q hq
    rw [sumAll_cons]
    cases hadd : addQuantity c q q2 with
    | none =>
      have hnone : (convertAmount c q2 q.unit).isSome = false := by
        rw [← addQuantity_isSome c q q2 hq, hadd]; rfl
      simp only [List.all_cons, hnone, Bool.false_and]
      rfl
    | some b =>
      obtain ⟨hu, hb⟩ := addQuantity_keeps c q q2 b hadd
      have hc2 : (convertAmount c q2 q.unit).isSome = true := by
        rw [← addQuantity_isSome c q q2 hq, hadd]; rfl
      simp only [List.all_cons, hc2, Bool.true_and]
      rw [ih b hb, hu]

end GroupingLemmas

/-- C5: `group_ingredients` classifies each merged same-named group by a
three-valued outcome: a group with no quantities at all is `Fixed`; when the
head quantity is numeric and every other quantity converts to its unit (all
share a convertible kind), the outcome is `Scaled` with one summed quantity;
when some quantity does not convert (mutually incompatible kinds), the
outcome is `Error` and the original quantities are kept listed separately
instead of summed. -/
theorem group_ingredients_outcome_classification (c : Converter) :
    (groupQuantities c []).outcome = GroupOutcome.fixed
    ∧ (∀ (q : Quantity) (qs : List Quantity), isNumeric q = true →
        (∀ q2 ∈ qs, (convertAmount c q2 q.unit).isSome = true) →
        ∃ t, groupQuantities c (q :: qs) =
          { outcome := .scaled, total := some t, items := q :: qs })
    ∧ (∀ (q : Quantity) (qs : List Quantity),
        (∃ q2 ∈ qs, (convertAmount c q2 q.unit).isSome = false) →
        isNumeric q = true →
        groupQuantities c (q :: qs) =
          { outcome := .error, total := none, items := q :: qs }) := by
  refine ⟨rfl, ?_, ?_⟩
  · intro q qs hq hall
    have hs : (sumAll c q qs).isSome = true := by
      rw [sumAll_isSome c qs q hq]
      exact List.all_eq_true.mpr (fun q2 h2 => hall q2 h2)
    obtain ⟨t, ht⟩ := Option.isSome_iff_exists.mp hs
    exact ⟨t, by simp [groupQuantities, ht]⟩
  · intro q qs hex hq
    obtain ⟨q2, h2, hc2⟩ := hex
    have hs : (sumAll c q qs).isSome = false := by
      rw [sumAll_isSome c qs q hq]
      refine Bool.eq_false_iff.mpr ?_
      intro hallt
      exact absurd (List.all_eq_true.mp hallt q2 h2) (by simp [hc2])
    have : sumAll c q qs = none := Option.not_isSome_iff_eq_none.mp (by simp [hs])
    simp [groupQuantities, this]

/-- Witness for C5: with a converter knowing g and kg (mass, factors 1 and
1000), merging 200 g with 0.3 kg yields a `Scaled` group summed to 500 g,
and merging 200 g with a bare count of 2 yields an `Error` group keeping
both original quantities. -/
theorem group_ingredients_outcome_classification_witness :
    (∃ t, groupQuantities
        { units := [{ uname := "g", kind := .mass, factor := 1 },
                    { uname := "kg", kind := .mass, factor := 1000 }] }
        [{ value := .number 200, unit := some "g" },
         { value := .number (3 / 10), unit := some "kg" }] =
      { outcome := .scaled, total := some t,
        items := [{ value := .number 200, unit := some "g" },
                  { value := .number (3 / 10), unit := some "kg" }] })
    ∧ groupQuantities
        { units := [{ uname := "g", kind := .mass, factor := 1 },
                    { uname := "kg", kind := .mass, factor := 1000 }] }
        [{ value := .number 200, unit := some "g" },
         { value := .number 2, unit := none }] =
      { outcome := .error, total := none,
        items := [{ value := .number 200, unit := some "g" },
                  { value := .number 2, unit := none }] } := by
  constructor
  · exact (group_ingredients_outcome_classification _).2.1 _ _ (by decide) (by decide)
  · exact (group_ingredients_outcome_classification _).2.2 _ _
      ⟨{ value := .number 2, unit := none }, by decide, by decide⟩ (by decide)

/-- Witness for C7: a hidden entry renders to no line; a listed entry with
quantity "500 g" renders with the quantity before the name. -/
theorem md_hidden_ingredients_omitted_witness :
    ingredientLine
        { ingredient := { display_name := "salt", should_be_listed := false,
                          is_optional := false, note := none },
          quantity := { text := "1 pinch", is_empty := false } } = none
    ∧ ingredientLine
        { ingredient := { display_name := "flour", should_be_listed := true,
                          is_optional := false, note := none },
          quantity := { text := "500 g", is_empty := false } } =
        some ("- " ++ ("*" ++ "500 g" ++ "* ") ++ "flour" ++ "" ++ "") := by
  constructor
  · exact md_hidden_ingredients_omitted.1 _ rfl
  · have h := md_hidden_ingredients_omitted.2.2
      { ingredient := { display_name := "flour", should_be_listed := true,
                        is_optional := false, note := none },
        quantity := { text := "500 g", is_empty := false } } rfl rfl
    simpa using h
